import Mathlib

set_option maxHeartbeats 1000000

/-!
Shallow embedding of the asset-matrix pipeline core (Go package `matrix`):
the extension registry (`Register` / `FindHandlers`), the FD-budget permit
pool (`fdBucket` / `SetFDLimit` / `shouldOpenFD` / `waitFD` / `fdClosed`),
the chain builder (`NewFileHandler` / `buildHandlerChain`), the concatenation
merge engine (`MergeWithParents` / `removeIncompatibleHandlers` /
`concatenateAtIndex` / `addHandlerAfterIndex` / `AddFileHandler` /
`AddParentFileHandler`) and the orchestration glue
(`ConfigureHandlers` / `WriteOutput`), together with theorems settling the
spec claims about them.

The FD-budget pool is the Go buffered channel `fdBucket = make(chan struct, cap)`.
Its state is the number of tokens currently buffered in the channel (the
number of currently held permits), written `held`, with channel capacity
`cap`.  A non-blocking send (`select`/`default`) succeeds exactly when
`held < cap`; a blocking send (`waitFD`) completes only when `held < cap`;
a receive (`fdClosed`) completes only when `held > 0`.
-/

/-- Embedding of `shouldOpenFD(n)` (the non-blocking try-acquire of `n`
permits) run against a pool of capacity `cap` holding `held` permits.
The Go loop repeatedly attempts a non-blocking channel send: on success it
decrements `n` and returns `true` once `n` reaches `0`; when the channel is
full (the `default` case) it returns `false` immediately, keeping every
permit already sent during this same call.  Returns the pair
(held permits after the call, returned boolean).  `n` is a Go `int`. -/
def shouldOpenFD (cap held : Nat) (n : Int) : Nat × Bool :=
  if _h : held < cap then
    if n - 1 = 0 then (held + 1, true)
    else shouldOpenFD cap (held + 1) (n - 1)
  else (held, false)
termination_by cap - held
decreasing_by omega

/-- One operation against the FD-budget pool. -/
inductive FDOp where
  | tryAcquire (n : Int)
  | acquire
  | release

/-- Effect of one pool operation on the held-permit count, for a pool of
capacity `cap`: `tryAcquire n` is `shouldOpenFD(n)`; `acquire` is `waitFD()`
(a blocking channel send, which completes only when a slot is free — a send
against a full channel blocks and is modelled as not completing, leaving the
count unchanged); `release` is `fdClosed()` (a blocking channel receive,
which against an empty channel blocks, likewise leaving the count
unchanged). -/
def fdStep (cap : Nat) (held : Nat) : FDOp → Nat
  | FDOp.tryAcquire n => (shouldOpenFD cap held n).1
  | FDOp.acquire => if held < cap then held + 1 else held
  | FDOp.release => held - 1

/-- Capacity of the initially allocated `fdBucket` channel. -/
def initialFDCapacity : Nat := 10

/-- Embedding of `SetFDLimit`: replaces the pool with a fresh empty channel
of the given capacity.  Returns the new (capacity, held) state. -/
def setFDLimit (limit : Nat) : Nat × Nat := (limit, 0)

theorem shouldOpenFD_fst_le :
    ∀ (k cap held : Nat) (n : Int), cap - held ≤ k → held ≤ cap →
      (shouldOpenFD cap held n).1 ≤ cap := by
  intro k
  induction k with
  | zero =>
    intro cap held n hk hle
    rw [shouldOpenFD]
    have hnlt : ¬ held < cap := by omega
    rw [dif_neg hnlt]
    exact hle
  | succ k ih =>
    intro cap held n hk hle
    rw [shouldOpenFD]
    by_cases hlt : held < cap
    · rw [dif_pos hlt]
      by_cases hn : n - 1 = 0
      · rw [if_pos hn]
        exact hlt
      · rw [if_neg hn]
        exact ih cap (held + 1) (n - 1) (by omega) (by omega)
    · rw [dif_neg hlt]
      exact hle

/-- C9: after any sequence of try-acquires (successful or failed), blocking
acquires and releases, the held-permit count never exceeds the pool
capacity. -/
theorem fd_budget_conservation (cap held : Nat) (ops : List FDOp)
    (h : held ≤ cap) : ops.foldl (fdStep cap) held ≤ cap := by
  induction ops generalizing held with
  | nil => simpa using h
  | cons op rest ih =>
    refine ih ((fdStep cap held op)) ?_
    cases op with
    | tryAcquire n => exact shouldOpenFD_fst_le (cap - held) cap held n le_rfl h
    | acquire =>
      simp only [fdStep]
      by_cases hlt : held < cap
      · rw [if_pos hlt]; omega
      · rw [if_neg hlt]; exact h
    | release =>
      simp only [fdStep]
      omega

/-- Witness for C9 at the default capacity `initialFDCapacity = 10` with a
concrete operation sequence containing a failing try-acquire. -/
theorem fd_budget_conservation_witness :
    (0 : Nat) ≤ initialFDCapacity ∧
      [FDOp.tryAcquire 3, FDOp.acquire, FDOp.release,
        FDOp.tryAcquire 20].foldl (fdStep initialFDCapacity) 0 ≤
        initialFDCapacity :=
  ⟨by decide,
    fd_budget_conservation initialFDCapacity 0
      [FDOp.tryAcquire 3, FDOp.acquire, FDOp.release, FDOp.tryAcquire 20]
      (by decide)⟩

/-- C1: evaluating `shouldOpenFD` at capacity 2, held count 0, demand
`n = 3`: the try-acquire fails (returns `false`) yet leaves 2 newly claimed
permits in the pool — the held count changes from 0 to 2, so the failed
attempt is not a no-op and callers observe partial acquisition. -/
theorem shouldOpenFD_partial_acquire_leak :
    shouldOpenFD 2 0 3 = (2, false) ∧ (2 : Nat) ≠ 0 := by
  constructor
  · rw [shouldOpenFD]
    norm_num
    rw [shouldOpenFD]
    norm_num
    rw [shouldOpenFD]
    norm_num
  · decide

/-- Outcome of the FD-permit operations performed by one chain step's worker:
the held-permit count after the step completes, the number of permits the
worker claimed, and the number it released. -/
structure StepFDResult where
  held : Nat
  acquired : Nat
  released : Nat
  deriving DecidableEq

/-- Embedding of the FD-permit accounting of the worker spawned by
`handlerFn` in `FileHandler.Handle` for a single chain step, run to
completion in isolation against a pool of capacity `cap` currently holding
`held` permits.  `requiredFds = none` models a handler that does not
implement the `FDHandler` interface (no permit operation is performed at
all); `some n` models `RequiredFds() = n`.  `copyOk` is whether the
materializing `io.Copy` into the memory buffer succeeds.  Following the
source: when `n > 0` the worker first runs `shouldOpenFD(n)`; if that
returns `false` it copies the input into memory (on a copy error it returns
before `waitFD()` and before `defer fdClosed()` is registered), then calls
`waitFD()`; in every non-early-return case exactly one `fdClosed()` runs via
`defer` when the step finishes, regardless of the handler's success or
failure.  Returns `none` when the worker blocks forever (a blocking
send/receive against a full/empty pool with no concurrent activity). -/
def handlerFnPermits (cap held : Nat) (requiredFds : Option Int)
    (copyOk : Bool) : Option StepFDResult :=
  match requiredFds with
  | none => some ⟨held, 0, 0⟩
  | some n =>
    if 0 < n then
      let r := shouldOpenFD cap held n
      if r.2 then
        some ⟨r.1 - 1, r.1 - held, 1⟩
      else
        if copyOk then
          if r.1 < cap then some ⟨r.1, r.1 - held + 1, 1⟩ else none
        else some ⟨r.1, r.1 - held, 0⟩
    else
      if 0 < held then some ⟨held - 1, 0, 1⟩ else none

/-- C4: the per-step permit accounting of `handlerFn` is not balanced.  For
a step declaring `RequiredFds() = 2` against an empty pool of capacity 10,
the non-blocking reservation succeeds and claims 2 permits, but the single
deferred `fdClosed()` releases only 1, so the step ends with 1 permit still
held (a leak); and for a step declaring `RequiredFds() = 0` with 3 permits
held by others, the worker skips the reservation entirely yet still runs the
deferred `fdClosed()`, releasing 1 permit it never acquired. -/
theorem handlerFnPermits_unbalanced :
    handlerFnPermits 10 0 (some 2) true = some ⟨1, 2, 1⟩ ∧
      handlerFnPermits 10 3 (some 0) true = some ⟨2, 0, 1⟩ ∧
      (2 : Nat) ≠ 1 ∧ (0 : Nat) ≠ 1 := by
  refine ⟨?_, by rw [handlerFnPermits]; norm_num, by decide, by decide⟩
  rw [handlerFnPermits]
  have h2 : shouldOpenFD 10 0 2 = (2, true) := by
    rw [shouldOpenFD]
    norm_num
    rw [shouldOpenFD]
    norm_num
  norm_num [h2]

/-- Go `InputMode`: `Flow` replaces the current stream; `Fork` branches it. -/
inductive InputMode where
  | flow
  | fork
  deriving DecidableEq

/-- Go `OutputMode`: `Flow` one output per input; `Unite` aggregates all. -/
inductive OutputMode where
  | flow
  | unite
  deriving DecidableEq

/-- Go `HandlerOptions`. -/
structure HandlerOptions where
  inputMode : InputMode
  outputMode : OutputMode
  deriving DecidableEq

/-- Go `ConcatenationMode` (`ConcatenationModePrepend` / `...Append`). -/
inductive ConcatenationMode where
  | prepend
  | append
  deriving DecidableEq

/-- A chain element (an implementor of the Go `Handler` interface).  The
only observation the pipeline-construction code makes of a handler is
`OutputExt()`, so handlers are represented by their construction shape plus
their output extension: `base` is an externally registered transformation
(tagged by an arbitrary identity so distinct registrations stay distinct);
`defaultHandler` is `NewDefaultHandler(ext)`; `forkHandler` is
`NewForkHandler(NewFileHandler(...), ext)` carrying the sub-chain that
`NewFileHandler` built; `concatenationHandler` is
`NewConcatenationHandler(parent, child, mode, ext)` with the two
`FileHandler`s named by identity.  The constructors `NewDefaultHandler`,
`NewForkHandler` and `NewConcatenationHandler` are not under `src/`;
modelled from the spec: the default step is a pass-through whose output
extension equals the input extension, a fork step lets the original stream
continue unaffected (so it carries the incoming extension), and a
concatenation step carries the shared extension. -/
inductive Handler where
  | base (id : Nat) (outExt : String)
  | defaultHandler (ext : String)
  | forkHandler (sub : List Handler) (ext : String)
  | concatenationHandler (parentId childId : Nat) (mode : ConcatenationMode)
      (ext : String)

/-- The `OutputExt()` method. -/
def Handler.OutputExt : Handler → String
  | Handler.base _ e => e
  | Handler.defaultHandler e => e
  | Handler.forkHandler _ e => e
  | Handler.concatenationHandler _ _ _ e => e

/-- Go `RegisteredHandler`. -/
structure RegisteredHandler where
  handler : Handler
  options : HandlerOptions

/-- A Go map modelled as an association list: lookup returns the value of
the first (unique) binding of the key. -/
def alistFind {α : Type} (k : String) : List (String × α) → Option α
  | [] => none
  | (k2, v) :: rest => if k2 = k then some v else alistFind k rest

/-- Insert-or-overwrite on the association-list model of a Go map. -/
def alistInsert {α : Type} (k : String) (v : α) :
    List (String × α) → List (String × α)
  | [] => [(k, v)]
  | (k2, v2) :: rest =>
    if k2 = k then (k, v) :: rest else (k2, v2) :: alistInsert k v rest

/-- The inner map of `registeredHandlers`: output extension to registered
handler.  Association-list order stands in for Go's unspecified map
iteration order; every theorem below is insensitive to that order. -/
abbrev HandlerMap := List (String × RegisteredHandler)

/-- `registeredHandlers`: input extension to `HandlerMap`. -/
abbrev Registry := List (String × HandlerMap)

/-- Embedding of `Register(inExt, outExt, handler, options)`: creates the
inner map when absent (`registeredHandlers[inExt] == nil`), then assigns
`registeredHandlers[inExt][outExt]`. -/
def register (reg : Registry) (inExt outExt : String) (h : Handler)
    (options : HandlerOptions) : Registry :=
  let m := (alistFind inExt reg).getD []
  alistInsert inExt (alistInsert outExt ⟨h, options⟩ m) reg

/-- Embedding of `FindHandlers(inExt)`: the map registered for `inExt` when
one exists, otherwise the map registered under the wildcard `"*"` (`none`
models Go's nil map). -/
def findHandlers (reg : Registry) (inExt : String) : Option HandlerMap :=
  match alistFind inExt reg with
  | some m => some m
  | none => alistFind "*" reg

/-- Lookup of the entry registered for a given (inExt, outExt) pair. -/
def lookupRegistered (reg : Registry) (inExt outExt : String) :
    Option RegisteredHandler :=
  (alistFind inExt reg).bind (fun m => alistFind outExt m)

theorem alistFind_insert_self {α : Type} (k : String) (v : α)
    (l : List (String × α)) : alistFind k (alistInsert k v l) = some v := by
  induction l with
  | nil => simp [alistInsert, alistFind]
  | cons p rest ih =>
    obtain ⟨k2, v2⟩ := p
    by_cases hk : k2 = k
    · simp [alistInsert, alistFind, hk]
    · simp [alistInsert, alistFind, hk, ih]

theorem alistFind_insert_ne {α : Type} (k k2 : String) (hne : k2 ≠ k)
    (v : α) (l : List (String × α)) :
    alistFind k2 (alistInsert k v l) = alistFind k2 l := by
  induction l with
  | nil => simp [alistInsert, alistFind, Ne.symm hne]
  | cons p rest ih =>
    obtain ⟨k3, v3⟩ := p
    by_cases hk : k3 = k
    · subst hk
      simp [alistInsert, alistFind, Ne.symm hne]
    · by_cases hk2 : k3 = k2
      · subst hk2
        simp [alistInsert, alistFind, hk]
      · simp [alistInsert, alistFind, hk, hk2, ih]

/-- C8: `Register` inserts or overwrites exactly the (inExt, outExt) entry,
leaving every other (in, out) pair's lookup unchanged; and `FindHandlers`
returns the map registered for the extension when one exists, otherwise the
map registered under the wildcard `"*"` (absent — with no error — when no
wildcard was registered). -/
theorem register_findHandlers_contract (reg : Registry)
    (i o i2 o2 : String) (h : Handler) (opts : HandlerOptions) :
    (lookupRegistered (register reg i o h opts) i2 o2 =
      if i2 = i ∧ o2 = o then some ⟨h, opts⟩ else lookupRegistered reg i2 o2) ∧
    (∀ m, alistFind i2 reg = some m → findHandlers reg i2 = some m) ∧
    (alistFind i2 reg = none → findHandlers reg i2 = alistFind "*" reg) := by
  refine ⟨?_, ?_, ?_⟩
  · by_cases hi : i2 = i
    · subst hi
      by_cases ho : o2 = o
      · subst ho
        rw [if_pos ⟨rfl, rfl⟩]
        simp [lookupRegistered, register, alistFind_insert_self]
      · rw [if_neg (fun hc => ho hc.2)]
        simp only [lookupRegistered, register, alistFind_insert_self,
          alistFind_insert_ne o o2 ho, Option.some_bind]
        cases hfind : alistFind i2 reg with
        | none => simp [alistFind]
        | some m => simp
    · rw [if_neg (fun hc => hi hc.1)]
      simp [lookupRegistered, register, alistFind_insert_ne i i2 hi]
  · intro m hm
    rw [findHandlers, hm]
  · intro hm
    rw [findHandlers, hm]

/-- Witness for C8: a concrete registration looked up again, and a wildcard
fallback on an unregistered extension in a registry with no wildcard. -/
theorem register_findHandlers_contract_witness :
    lookupRegistered
        (register [] "coffee" "js" (Handler.base 1 "js")
          ⟨InputMode.flow, OutputMode.flow⟩) "coffee" "js" =
      some ⟨Handler.base 1 "js", ⟨InputMode.flow, OutputMode.flow⟩⟩ ∧
    findHandlers [] "svg" = alistFind "*" ([] : Registry) := by
  constructor
  · have h := (register_findHandlers_contract [] "coffee" "js" "coffee" "js"
      (Handler.base 1 "js") ⟨InputMode.flow, OutputMode.flow⟩).1
    rw [if_pos ⟨rfl, rfl⟩] at h
    exact h
  · exact (register_findHandlers_contract [] "c" "j" "svg" "j"
      (Handler.base 1 "j") ⟨InputMode.flow, OutputMode.flow⟩).2.2 rfl

mutual
/-- Embedding of `FileHandler.buildHandlerChain(inExt)`, the recursive chain
builder, as a function from the current `HandlerChain` to the final one.
Because the Go recursion need not terminate, the embedding carries a fuel
bound on the depth of nested `buildHandlerChain` invocations and returns
`none` when the fuel runs out: the Go call diverges exactly when no fuel
suffices.  Mirroring the source: if `FindHandlers` returns nil and the chain
is empty, a single `NewDefaultHandler(inExt)` is appended; if it returns nil
and the chain is non-empty, nothing is added; otherwise the registered
entries are iterated by `buildHandlerLoop`. -/
def buildHandlerChainFuel (reg : Registry) :
    Nat → List Handler → String → Option (List Handler)
  | 0, _, _ => none
  | fuel + 1, chain, inExt =>
    match findHandlers reg inExt with
    | none =>
      if chain.length = 0 then some (chain ++ [Handler.defaultHandler inExt])
      else some chain
    | some handlers => buildHandlerLoop reg fuel chain true inExt handlers
termination_by fuel _ _ => (fuel, 0, 0)

/-- The `for outExt, rh := range handlers` loop body of
`buildHandlerChain`: the first Flow-mode entry while `canAppendFlow` holds
appends its handler and recurses on the entry's output extension, continuing
the same chain; every other entry builds a fresh `NewFileHandler(inExt)`
(an empty chain fed back into `buildHandlerChain(inExt)`) and appends it
wrapped in `NewForkHandler(·, inExt)`. -/
def buildHandlerLoop (reg : Registry) :
    Nat → List Handler → Bool → String → HandlerMap → Option (List Handler)
  | _, chain, _, _, [] => some chain
  | fuel, chain, canAppendFlow, inExt, (outExt, rh) :: rest =>
    if rh.options.inputMode = InputMode.flow ∧ canAppendFlow = true then
      match buildHandlerChainFuel reg fuel (chain ++ [rh.handler]) outExt with
      | none => none
      | some chain2 => buildHandlerLoop reg fuel chain2 false inExt rest
    else
      match buildHandlerChainFuel reg fuel [] inExt with
      | none => none
      | some sub =>
        buildHandlerLoop reg fuel (chain ++ [Handler.forkHandler sub inExt])
          canAppendFlow inExt rest
termination_by fuel _ _ _ entries => (fuel, 1, entries.length)
end

/-- Embedding of `NewFileHandler(inExt)`: a fresh `FileHandler` (empty
chain) run through `buildHandlerChain(inExt)`. -/
def newFileHandlerChain (reg : Registry) (fuel : Nat) (inExt : String) :
    Option (List Handler) :=
  buildHandlerChainFuel reg fuel [] inExt

/-- C7: building the chain of an extension with no registered
transformations and no wildcard registration yields exactly one default
pass-through step, whose output extension equals the input extension. -/
theorem buildHandlerChain_default_fallback (reg : Registry) (inExt : String)
    (fuel : Nat) (h1 : alistFind inExt reg = none)
    (h2 : alistFind "*" reg = none) :
    newFileHandlerChain reg (fuel + 1) inExt =
      some [Handler.defaultHandler inExt] ∧
    Handler.OutputExt (Handler.defaultHandler inExt) = inExt := by
  constructor
  · have hf : findHandlers reg inExt = none := by
      rw [findHandlers, h1, h2]
    rw [newFileHandlerChain, buildHandlerChainFuel, hf]
    simp
  · rfl

/-- Witness for C7: the empty registry and the extension "txt". -/
theorem buildHandlerChain_default_fallback_witness :
    alistFind "txt" ([] : Registry) = none ∧
    alistFind "*" ([] : Registry) = none ∧
    (newFileHandlerChain [] 1 "txt" = some [Handler.defaultHandler "txt"] ∧
      Handler.OutputExt (Handler.defaultHandler "txt") = "txt") :=
  ⟨rfl, rfl, buildHandlerChain_default_fallback [] "txt" 0 rfl rfl⟩

/-- The registration set of C2's failing input: the single entry
`Register("js", "gz", handler, Fork)` — an acyclic extension graph with one
edge js → gz. -/
def forkOnlyRegistry : Registry :=
  register [] "js" "gz" (Handler.base 0 "gz")
    ⟨InputMode.fork, OutputMode.flow⟩

theorem findHandlers_forkOnly :
    findHandlers forkOnlyRegistry "js" =
      some [("gz", ⟨Handler.base 0 "gz", ⟨InputMode.fork, OutputMode.flow⟩⟩)] :=
  rfl

/-- C2: on the acyclic registration set js → gz (Fork mode),
`NewFileHandler("js")` never terminates: for every fuel bound the embedded
`buildHandlerChain` recursion exceeds it, because the Fork-mode entry
rebuilds `NewFileHandler("js")`, which meets the same Fork-mode entry
again. -/
theorem buildHandlerChain_fork_diverges :
    ∀ fuel, newFileHandlerChain forkOnlyRegistry fuel "js" = none := by
  intro fuel
  induction fuel with
  | zero => rw [newFileHandlerChain, buildHandlerChainFuel]
  | succ fuel ih =>
    rw [newFileHandlerChain] at ih ⊢
    rw [buildHandlerChainFuel, findHandlers_forkOnly]
    simp only [buildHandlerLoop.eq_def]
    simp [ih]

/-- The mutable fields of a Go `FileHandler`.  Other `FileHandler`s are
referred to by pointer in Go; here by a `Nat` identity. -/
structure FileHandlerState where
  handlerChain : List Handler
  fileSet : List Nat
  parentHandlers : List Nat

/-- The heap of `FileHandler`s: identity to current state. -/
abbrev Store := Nat → FileHandlerState

/-- Pointer write: replace the state of one `FileHandler`. -/
def setFH (s : Store) (i : Nat) (fh : FileHandlerState) : Store :=
  fun j => if j = i then fh else s j

def addHandlerAfterIndexAux (h : Handler) (index : Nat) :
    Nat → List Handler → List Handler
  | _, [] => []
  | i, x :: rest =>
    if i = index then x :: h :: addHandlerAfterIndexAux h index (i + 1) rest
    else x :: addHandlerAfterIndexAux h index (i + 1) rest

/-- Embedding of `FileHandler.addHandlerAfterIndex`: rebuild the chain,
appending `h` right after position `index` (when `index` is not a position
of the chain, the chain is rebuilt unchanged). -/
def addHandlerAfterIndex (chain : List Handler) (h : Handler)
    (index : Nat) : List Handler :=
  addHandlerAfterIndexAux h index 0 chain

/-- The mode-selection loop of `concatenateAtIndex`: walk the parent's
`FileSet` in order; hitting the child first selects Prepend, hitting the
parent itself (its self-inclusion entry) first selects Append; the child
test is made first, and the default is Prepend. -/
def concatMode : List Nat → Nat → Nat → ConcatenationMode
  | [], _, _ => ConcatenationMode.prepend
  | fh :: rest, parentId, childId =>
    if fh = childId then ConcatenationMode.prepend
    else if fh = parentId then ConcatenationMode.append
    else concatMode rest parentId childId

/-- Embedding of `concatenateAtIndex(child, handlerIndex)` on the parent:
compute the mode from the parent's `FileSet`, take the shared extension from
`parent.HandlerChain[handlerIndex]` (always in bounds at the call site), and
insert the concatenation handler after `handlerIndex`. -/
def concatenateAtIndex (s : Store) (parentId childId : Nat)
    (handlerIndex : Nat) : Store :=
  let p := s parentId
  let mode := concatMode p.fileSet parentId childId
  let ext :=
    (p.handlerChain.getD handlerIndex (Handler.defaultHandler "")).OutputExt
  setFH s parentId
    { p with
      handlerChain :=
        addHandlerAfterIndex p.handlerChain
          (Handler.concatenationHandler parentId childId mode ext)
          handlerIndex }

/-- The inner loop of `removeIncompatibleHandlers`: scan `b` from its end
backward for the first (hence highest-index) step whose output extension is
`ext`. -/
def findLastMatchingIndex (ext : String) : List Handler → Option Nat
  | [] => none
  | h :: rest =>
    match findLastMatchingIndex ext rest with
    | some j => some (j + 1)
    | none => if Handler.OutputExt h = ext then some 0 else none

/-- The double loop of `removeIncompatibleHandlers`: scan `a` from its end
backward, and for each step scan `b` from its end backward, returning the
index in `b` of the first matching pair of output extensions. -/
def removeIncompatibleAux : List Handler → List Handler → Option Nat
  | [], _ => none
  | x :: rest, b =>
    match removeIncompatibleAux rest b with
    | some j => some j
    | none => findLastMatchingIndex (Handler.OutputExt x) b

/-- Embedding of `removeIncompatibleHandlers(a, b)`.  On a match at
`(a[i], b[j])` the Go code executes `a = a[0:i]` — a rebinding of the
callee-local slice header, observable neither by the caller (the slice
header was passed by value) nor in the return value — and returns `j`;
with no match it returns an error.  The embedding therefore returns exactly
the function's caller-visible result. -/
def removeIncompatibleHandlers (a b : List Handler) : Except String Nat :=
  match removeIncompatibleAux a b with
  | some j => Except.ok j
  | none => Except.error "matrix: FileHandler: incompatible handler chains"

/-- Embedding of `FileHandler.MergeWithParents` for the `FileHandler` named
`childId`, iterating over a given list of parent identities.  The Go code
first sorts `ParentHandlers` ascending by chain length via
`byLenHandlerChain` (a type not under `src/`); the list is taken here in
the order it is given — every theorem below is invariant under permutations
of it.  Each step resolves the compatibility index against the (unchanged)
child chain and inserts a concatenation handler into that parent. -/
def mergeWithParents : Store → Nat → List Nat → Except String Store
  | s, _, [] => Except.ok s
  | s, childId, p :: rest =>
    match removeIncompatibleHandlers (s childId).handlerChain
        (s p).handlerChain with
    | Except.error e => Except.error e
    | Except.ok j =>
      mergeWithParents (concatenateAtIndex s p childId j) childId rest

/-- Embedding of `AddParentFileHandler`: append a parent identity to the
receiver's `ParentHandlers`. -/
def addParentFileHandler (s : Store) (selfId parentId : Nat) : Store :=
  setFH s selfId
    { s selfId with
      parentHandlers := (s selfId).parentHandlers ++ [parentId] }

/-- Embedding of `AddFileHandler`: when the added handler is not the
receiver itself, record the receiver as the added handler's parent; in
every case append the added handler to the receiver's `FileSet`. -/
def addFileHandler (s : Store) (fileHandlerId fhId : Nat) : Store :=
  let s1 :=
    if fhId = fileHandlerId then s
    else addParentFileHandler s fhId fileHandlerId
  setFH s1 fileHandlerId
    { s1 fileHandlerId with
      fileSet := (s1 fileHandlerId).fileSet ++ [fhId] }

/-- The parent/child-relation phase of `Manifest.ConfigureHandlers`: for
each file (given as its handler identity paired with the flattened identity
list of the files its directives name, in declaration order), add each named
handler via `AddFileHandler`; if none of them was the file itself, add the
file's own handler to its `FileSet` afterwards.  The surrounding Go map
iteration order is unspecified; the file list order stands in for it. -/
def configureFileEntry (st : Store) (entry : Nat × List Nat) : Store :=
  let st2 := entry.2.foldl (fun st d => addFileHandler st entry.1 d) st
  if entry.1 ∈ entry.2 then st2 else addFileHandler st2 entry.1 entry.1

def configureFileRelations (s : Store) (files : List (Nat × List Nat)) :
    Store :=
  files.foldl configureFileEntry s

/-- The merge phase of `Manifest.ConfigureHandlers`: run `MergeWithParents`
for each file handler in order (the Go code first sorts the handlers by
descending `ParentHandlers` length via `byLenParentHandlersReversed`, a type
not under `src/`; the order list stands in for the sorted slice), stopping
at — and returning — the first error. -/
def configureMerges : Store → List Nat → Except String Store
  | s, [] => Except.ok s
  | s, f :: rest =>
    match mergeWithParents s f (s f).parentHandlers with
    | Except.error e => Except.error e
    | Except.ok s2 => configureMerges s2 rest

/-- The selection made by `Manifest.WriteOutput`: walking the handler list
in reverse, every handler with a non-empty `ParentHandlers` is skipped and
every other one has its chain executed and its output written.  Returns the
identities written. -/
def writeOutputIds (s : Store) (order : List Nat) : List Nat :=
  order.reverse.filter (fun f => (s f).parentHandlers.isEmpty)

/-- The build pipeline relevant to configuration errors: `ConfigureHandlers`
(its merge phase), then — only if it returned no error — `WriteOutput`. -/
def runBuild (s : Store) (order : List Nat) : Except String (List Nat) :=
  match configureMerges s order with
  | Except.error e => Except.error e
  | Except.ok s2 => Except.ok (writeOutputIds s2 order)

/-- C3's failing input: the child chain, with output extensions
b, c, d. -/
def c3ChildChain : List Handler :=
  [Handler.base 1 "b", Handler.base 2 "c", Handler.base 3 "d"]

/-- C3's failing input: the parent chain, with output extension c. -/
def c3ParentChain : List Handler := [Handler.base 4 "c"]

/-- C3's failing input: handler 0 is the child (parent list [1]), handler 1
is the parent (its `FileSet` lists itself first, then the child). -/
def c3Store : Store := fun i =>
  if i = 0 then ⟨c3ChildChain, [0], [1]⟩
  else if i = 1 then ⟨c3ParentChain, [1, 0], []⟩
  else ⟨[], [], []⟩

/-- C3: at the concrete merge of child chain [b, c, d] into parent chain
[c], the matching pair is the child's step with output extension c (its
index 1) and the parent's step at index 0, so per the claim the child chain
should become [b, c]; the code instead returns parent index 0 and leaves
the child chain [b, c, d] untouched (the `a = a[0:i]` truncation in
`removeIncompatibleHandlers` is lost), while the parent gains the
concatenation step. -/
theorem mergeWithParents_no_truncation :
    removeIncompatibleHandlers c3ChildChain c3ParentChain = Except.ok 0 ∧
    (mergeWithParents c3Store 0 [1]).toOption.map
        (fun s => ((s 0).handlerChain.map Handler.OutputExt,
          (s 1).handlerChain.map Handler.OutputExt))
      = some (["b", "c", "d"], ["c", "c"]) ∧
    (mergeWithParents c3Store 0 [1]).toOption.map
        (fun s => (s 1).handlerChain)
      = some [Handler.base 4 "c",
          Handler.concatenationHandler 1 0 ConcatenationMode.append "c"] := by
  refine ⟨rfl, rfl, rfl⟩

/-- Position of the first occurrence of `x`. -/
def firstIndexOf (x : Nat) : List Nat → Nat
  | [] => 0
  | y :: rest => if y = x then 0 else firstIndexOf x rest + 1

/-- C6: for a parent whose `FileSet` contains both the child and the
parent's own self-inclusion entry, the concatenation mode is Prepend
exactly when the child's first occurrence precedes the self-inclusion
entry's, and Append otherwise (the child-equals-self case cannot arise:
`AddFileHandler` never records a handler as its own parent). -/
theorem concatMode_position (fs : List Nat) (p c : Nat) (hcp : c ≠ p)
    (hc : c ∈ fs) (hp : p ∈ fs) :
    concatMode fs p c =
      (if firstIndexOf c fs < firstIndexOf p fs then
        ConcatenationMode.prepend
      else ConcatenationMode.append) := by
  induction fs with
  | nil => cases hc
  | cons x rest ih =>
    by_cases hxc : x = c
    · have hxp : ¬ x = p := by rw [hxc]; exact hcp
      simp [concatMode, firstIndexOf, hxc, hxp, hcp]
    · by_cases hxp : x = p
      · simp [concatMode, firstIndexOf, hxc, hxp, Ne.symm hcp]
      · have hc2 : c ∈ rest := by
          cases hc with
          | head => exact absurd rfl hxc
          | tail _ h => exact h
        have hp2 : p ∈ rest := by
          cases hp with
          | head => exact absurd rfl hxp
          | tail _ h => exact h
        simp only [concatMode, firstIndexOf, if_neg hxc, if_neg hxp,
          ih hc2 hp2]
        by_cases hlt : firstIndexOf c rest < firstIndexOf p rest
        · rw [if_pos hlt, if_pos (by omega)]
        · rw [if_neg hlt, if_neg (by omega)]

/-- Witness for C6: for declared order [self, child] (`FileSet` = [1, 2],
parent 1, child 2) the mode is Append, matching the claim's example. -/
theorem concatMode_position_witness :
    ((2 : Nat) ≠ 1 ∧ 2 ∈ [1, 2] ∧ 1 ∈ [1, 2]) ∧
      concatMode [1, 2] 1 2 = ConcatenationMode.append := by
  refine ⟨by decide, ?_⟩
  have h := concatMode_position [1, 2] 1 2 (by decide) (by decide) (by decide)
  rw [h, if_neg (by decide)]

/-- No step of `a` shares an output extension with any step of `b`. -/
abbrev ExtDisjoint (a b : List Handler) : Prop :=
  ∀ x ∈ a, ∀ y ∈ b, Handler.OutputExt x ≠ Handler.OutputExt y

theorem findLastMatchingIndex_none (ext : String) (b : List Handler)
    (h : ∀ y ∈ b, Handler.OutputExt y ≠ ext) :
    findLastMatchingIndex ext b = none := by
  induction b with
  | nil => rfl
  | cons hd rest ih =>
    rw [findLastMatchingIndex,
      ih (fun y hy => h y (List.mem_cons_of_mem _ hy))]
    simp [h hd (List.mem_cons_self _ _)]

theorem removeIncompatibleAux_none (a b : List Handler)
    (h : ExtDisjoint a b) : removeIncompatibleAux a b = none := by
  induction a with
  | nil => rfl
  | cons x rest ih =>
    rw [removeIncompatibleAux,
      ih (fun z hz => h z (List.mem_cons_of_mem _ hz))]
    simp [findLastMatchingIndex_none (Handler.OutputExt x) b
      (fun y hy => (h x (List.mem_cons_self _ _) y hy).symm)]

theorem removeIncompatibleHandlers_error (a b : List Handler)
    (h : ExtDisjoint a b) :
    removeIncompatibleHandlers a b =
      Except.error "matrix: FileHandler: incompatible handler chains" := by
  rw [removeIncompatibleHandlers, removeIncompatibleAux_none a b h]

theorem findLastMatchingIndex_lt (ext : String) :
    ∀ (b : List Handler) (j : Nat),
      findLastMatchingIndex ext b = some j → j < b.length := by
  intro b
  induction b with
  | nil => intro j h; cases h
  | cons hd rest ih =>
    intro j h
    rw [findLastMatchingIndex] at h
    cases hfind : findLastMatchingIndex ext rest with
    | some j2 =>
      rw [hfind] at h
      injection h with h2
      have := ih j2 hfind
      simp only [List.length_cons]
      omega
    | none =>
      rw [hfind] at h
      by_cases hext : Handler.OutputExt hd = ext
      · rw [if_pos hext] at h
        injection h with h2
        simp only [List.length_cons]
        omega
      · rw [if_neg hext] at h
        cases h

theorem removeIncompatibleAux_lt :
    ∀ (a b : List Handler) (j : Nat),
      removeIncompatibleAux a b = some j → j < b.length := by
  intro a
  induction a with
  | nil => intro b j h; cases h
  | cons x rest ih =>
    intro b j h
    rw [removeIncompatibleAux] at h
    cases hfind : removeIncompatibleAux rest b with
    | some j2 =>
      rw [hfind] at h
      injection h with h2
      exact h2 ▸ ih b j2 hfind
    | none =>
      rw [hfind] at h
      exact findLastMatchingIndex_lt _ b j h

theorem removeIncompatibleHandlers_ok (a b : List Handler) (j : Nat)
    (h : removeIncompatibleHandlers a b = Except.ok j) :
    removeIncompatibleAux a b = some j := by
  rw [removeIncompatibleHandlers] at h
  cases hfind : removeIncompatibleAux a b with
  | some j2 =>
    rw [hfind] at h
    injection h with h2
    rw [h2]
  | none =>
    rw [hfind] at h
    cases h

theorem setFH_same (s : Store) (i : Nat) (fh : FileHandlerState) :
    (setFH s i fh) i = fh := by
  simp [setFH]

theorem setFH_other (s : Store) (i : Nat) (fh : FileHandlerState) (j : Nat)
    (h : j ≠ i) : (setFH s i fh) j = s j := by
  simp [setFH, h]

theorem concatenateAtIndex_other (s : Store) (p c j x : Nat) (h : x ≠ p) :
    (concatenateAtIndex s p c j) x = s x := by
  simp [concatenateAtIndex, setFH, h]

theorem concatenateAtIndex_meta (s : Store) (p c j x : Nat) :
    ((concatenateAtIndex s p c j) x).parentHandlers =
        (s x).parentHandlers ∧
      ((concatenateAtIndex s p c j) x).fileSet = (s x).fileSet := by
  by_cases h : x = p
  · subst h
    simp [concatenateAtIndex, setFH]
  · simp [concatenateAtIndex, setFH, h]

theorem mem_addHandlerAfterIndexAux (h : Handler) (index : Nat) :
    ∀ (chain : List Handler) (i : Nat) (y : Handler),
      y ∈ addHandlerAfterIndexAux h index i chain → y ∈ chain ∨ y = h := by
  intro chain
  induction chain with
  | nil =>
    intro i y hy
    cases hy
  | cons x rest ih =>
    intro i y hy
    rw [addHandlerAfterIndexAux] at hy
    by_cases hi : i = index
    · rw [if_pos hi] at hy
      simp only [List.mem_cons] at hy
      rcases hy with rfl | rfl | hy
      · exact Or.inl (List.mem_cons_self _ _)
      · exact Or.inr rfl
      · rcases ih (i + 1) y hy with h1 | h1
        · exact Or.inl (List.mem_cons_of_mem _ h1)
        · exact Or.inr h1
    · rw [if_neg hi] at hy
      simp only [List.mem_cons] at hy
      rcases hy with rfl | hy
      · exact Or.inl (List.mem_cons_self _ _)
      · rcases ih (i + 1) y hy with h1 | h1
        · exact Or.inl (List.mem_cons_of_mem _ h1)
        · exact Or.inr h1

theorem mem_addHandlerAfterIndex (chain : List Handler) (h : Handler)
    (index : Nat) (y : Handler)
    (hy : y ∈ addHandlerAfterIndex chain h index) : y ∈ chain ∨ y = h :=
  mem_addHandlerAfterIndexAux h index chain 0 y hy

theorem getD_mem_of_lt :
    ∀ (l : List Handler) (j : Nat), j < l.length →
      ∀ d, l.getD j d ∈ l := by
  intro l
  induction l with
  | nil =>
    intro j hj
    simp at hj
  | cons x rest ih =>
    intro j hj d
    cases j with
    | zero =>
      rw [List.getD_cons_zero]
      exact List.mem_cons_self _ _
    | succ j =>
      rw [List.getD_cons_succ]
      exact List.mem_cons_of_mem _ (ih j (by simpa using hj) d)

theorem concatenateAtIndex_ext_shrink (s : Store) (p c j : Nat)
    (hj : j < (s p).handlerChain.length) (x : Nat) :
    ∀ y ∈ ((concatenateAtIndex s p c j) x).handlerChain,
      ∃ z ∈ (s x).handlerChain,
        Handler.OutputExt y = Handler.OutputExt z := by
  intro y hy
  by_cases hxp : x = p
  · subst hxp
    simp only [concatenateAtIndex, setFH, if_pos rfl] at hy
    rcases mem_addHandlerAfterIndex _ _ _ y hy with h1 | h1
    · exact ⟨y, h1, rfl⟩
    · refine ⟨(s x).handlerChain.getD j (Handler.defaultHandler ""),
        getD_mem_of_lt _ j hj _, ?_⟩
      rw [h1]
      rfl
  · rw [concatenateAtIndex_other s p c j x hxp] at hy
    exact ⟨y, hy, rfl⟩

theorem mergeWithParents_ok_evolution :
    ∀ (ps : List Nat) (s : Store) (c : Nat) (s2 : Store),
      mergeWithParents s c ps = Except.ok s2 →
      (∀ x, (s2 x).parentHandlers = (s x).parentHandlers ∧
        (s2 x).fileSet = (s x).fileSet) ∧
      (∀ x, ∀ y ∈ (s2 x).handlerChain,
        ∃ z ∈ (s x).handlerChain,
          Handler.OutputExt y = Handler.OutputExt z) := by
  intro ps
  induction ps with
  | nil =>
    intro s c s2 h
    rw [mergeWithParents] at h
    injection h with h2
    subst h2
    exact ⟨fun x => ⟨rfl, rfl⟩, fun x y hy => ⟨y, hy, rfl⟩⟩
  | cons p rest ih =>
    intro s c s2 h
    rw [mergeWithParents] at h
    cases hrem : removeIncompatibleHandlers (s c).handlerChain
        (s p).handlerChain with
    | error e =>
      rw [hrem] at h
      cases h
    | ok j =>
      rw [hrem] at h
      have hj : j < (s p).handlerChain.length :=
        removeIncompatibleAux_lt _ _ _
          (removeIncompatibleHandlers_ok _ _ _ hrem)
      obtain ⟨hmeta, hshrink⟩ := ih (concatenateAtIndex s p c j) c s2 h
      constructor
      · intro x
        have h1 := concatenateAtIndex_meta s p c j x
        exact ⟨(hmeta x).1.trans h1.1, (hmeta x).2.trans h1.2⟩
      · intro x y hy
        obtain ⟨z, hz, hze⟩ := hshrink x y hy
        obtain ⟨w, hw, hwe⟩ :=
          concatenateAtIndex_ext_shrink s p c j hj x z hz
        exact ⟨w, hw, hze.trans hwe⟩

theorem mergeWithParents_error_of_disjoint :
    ∀ (ps : List Nat) (s : Store) (c p : Nat), p ∈ ps → c ∉ ps →
      ExtDisjoint (s c).handlerChain (s p).handlerChain →
      ∃ e, mergeWithParents s c ps = Except.error e := by
  intro ps
  induction ps with
  | nil =>
    intro s c p hp
    cases hp
  | cons q rest ih =>
    intro s c p hp hc hdis
    rw [mergeWithParents]
    by_cases hqp : q = p
    · subst hqp
      rw [removeIncompatibleHandlers_error _ _ hdis]
      exact ⟨_, rfl⟩
    · cases hrem : removeIncompatibleHandlers (s c).handlerChain
          (s q).handlerChain with
      | error e => exact ⟨e, rfl⟩
      | ok j =>
        have hcq : c ≠ q := fun h => hc (h ▸ List.mem_cons_self _ _)
        have hp2 : p ∈ rest := by
          rcases List.mem_cons.mp hp with h | h
          · exact absurd h.symm hqp
          · exact h
        have hc2 : c ∉ rest := fun h => hc (List.mem_cons_of_mem _ h)
        refine ih (concatenateAtIndex s q c j) c p hp2 hc2 ?_
        rw [concatenateAtIndex_other s q c j c hcq,
          concatenateAtIndex_other s q c j p (fun h => hqp h.symm)]
        exact hdis

theorem configureMerges_error_of_disjoint :
    ∀ (order : List Nat) (s : Store) (f p : Nat), f ∈ order →
      p ∈ (s f).parentHandlers → f ∉ (s f).parentHandlers →
      ExtDisjoint (s f).handlerChain (s p).handlerChain →
      ∃ e, configureMerges s order = Except.error e := by
  intro order
  induction order with
  | nil =>
    intro s f p hf
    cases hf
  | cons g rest ih =>
    intro s f p hf hp hself hdis
    rw [configureMerges]
    by_cases hgf : g = f
    · subst hgf
      obtain ⟨e, he⟩ := mergeWithParents_error_of_disjoint
        (s g).parentHandlers s g p hp hself hdis
      rw [he]
      exact ⟨e, rfl⟩
    · cases hmerge : mergeWithParents s g (s g).parentHandlers with
      | error e => exact ⟨e, rfl⟩
      | ok s2 =>
        have hf2 : f ∈ rest := by
          rcases List.mem_cons.mp hf with h | h
          · exact absurd h.symm hgf
          · exact h
        obtain ⟨hmeta, hshrink⟩ :=
          mergeWithParents_ok_evolution _ _ _ _ hmerge
        refine ih s2 f p hf2 ?_ ?_ ?_
        · rw [(hmeta f).1]
          exact hp
        · rw [(hmeta f).1]
          exact hself
        · intro x hx y hy
          obtain ⟨x2, hx2, hxe⟩ := hshrink f x hx
          obtain ⟨y2, hy2, hye⟩ := hshrink p y hy
          rw [hxe, hye]
          exact hdis x2 hx2 y2 hy2

/-- C5: when some file's chain shares no output extension with one of its
recorded parents' chains, the merge phase of handler configuration returns
a configuration error (the child is not silently dropped), and the build
aborts with that error before `WriteOutput` selects or writes anything.
The hypothesis that the file is not its own parent is an invariant of the
code: `AddFileHandler` never records a handler as its own parent. -/
theorem incompatible_chain_aborts_build (s : Store) (order : List Nat)
    (f p : Nat) (hf : f ∈ order) (hp : p ∈ (s f).parentHandlers)
    (hself : f ∉ (s f).parentHandlers)
    (hdis : ExtDisjoint (s f).handlerChain (s p).handlerChain) :
    ∃ e, runBuild s order = Except.error e := by
  obtain ⟨e, he⟩ :=
    configureMerges_error_of_disjoint order s f p hf hp hself hdis
  rw [runBuild, he]
  exact ⟨e, rfl⟩

/-- C5's witness input: file 0 (chain extension a) has parent 1 (chain
extension b); no extensions match. -/
def c5Store : Store := fun i =>
  if i = 0 then ⟨[Handler.base 1 "a"], [0], [1]⟩
  else if i = 1 then ⟨[Handler.base 2 "b"], [1, 0], []⟩
  else ⟨[], [], []⟩

/-- Witness for C5. -/
theorem incompatible_chain_aborts_build_witness :
    ((0 : Nat) ∈ [0, 1] ∧ 1 ∈ (c5Store 0).parentHandlers ∧
      (0 : Nat) ∉ (c5Store 0).parentHandlers ∧
      ExtDisjoint (c5Store 0).handlerChain (c5Store 1).handlerChain) ∧
    (∃ e, runBuild c5Store [0, 1] = Except.error e) :=
  ⟨⟨by decide, by decide, by decide, by decide⟩,
    incompatible_chain_aborts_build c5Store [0, 1] 0 1 (by decide)
      (by decide) (by decide) (by decide)⟩

theorem addFileHandler_self_parents (t : Store) (f x : Nat) :
    ((addFileHandler t f f) x).parentHandlers = (t x).parentHandlers := by
  by_cases h : x = f
  · subst h
    simp [addFileHandler, setFH]
  · simp [addFileHandler, setFH, h]

theorem addFileHandler_self_fileSet (t : Store) (f : Nat) :
    ((addFileHandler t f f) f).fileSet = (t f).fileSet ++ [f] := by
  simp [addFileHandler, setFH]

theorem addFileHandler_parents_other (t : Store) (g d x : Nat)
    (h : d = g ∨ x ≠ d) :
    ((addFileHandler t g d) x).parentHandlers = (t x).parentHandlers := by
  by_cases hdg : d = g
  · subst hdg
    exact addFileHandler_self_parents t d x
  · have hxd : x ≠ d := by
      rcases h with h | h
      · exact absurd h hdg
      · exact h
    by_cases hxg : x = g
    · subst hxg
      simp [addFileHandler, addParentFileHandler, setFH, hdg, hxd]
    · simp [addFileHandler, addParentFileHandler, setFH, hdg, hxd, hxg]

theorem addDirectiveFiles_parents (g f : Nat) :
    ∀ (ds : List Nat) (t : Store), (∀ d ∈ ds, d = g ∨ f ≠ d) →
      ((ds.foldl (fun st d => addFileHandler st g d) t) f).parentHandlers =
        (t f).parentHandlers := by
  intro ds
  induction ds with
  | nil =>
    intro t h
    rfl
  | cons d rest ih =>
    intro t h
    rw [List.foldl_cons]
    rw [ih _ (fun d2 hd2 => h d2 (List.mem_cons_of_mem _ hd2))]
    exact addFileHandler_parents_other t g d f (h d (List.mem_cons_self _ _))

theorem configureFileEntry_parents (t : Store) (g : Nat) (ds : List Nat)
    (f : Nat) (h : g = f ∨ f ∉ ds) :
    ((configureFileEntry t (g, ds)) f).parentHandlers =
      (t f).parentHandlers := by
  have hds : ∀ d ∈ ds, d = g ∨ f ≠ d := by
    intro d hd
    rcases h with h | h
    · by_cases hdf : f = d
      · left
        rw [← hdf, ← h]
      · right
        exact hdf
    · right
      exact fun hf2 => h (hf2 ▸ hd)
  simp only [configureFileEntry]
  by_cases hmem : g ∈ ds
  · rw [if_pos hmem]
    exact addDirectiveFiles_parents g f ds t hds
  · rw [if_neg hmem]
    rw [addFileHandler_parents_other _ g g f (Or.inl rfl)]
    exact addDirectiveFiles_parents g f ds t hds

theorem configureFileRelations_parents :
    ∀ (files : List (Nat × List Nat)) (s : Store) (f : Nat),
      (∀ g ds, (g, ds) ∈ files → g ≠ f → f ∉ ds) →
      ((configureFileRelations s files) f).parentHandlers =
        (s f).parentHandlers := by
  intro files
  induction files with
  | nil =>
    intro s f h
    rfl
  | cons entry rest ih =>
    intro s f h
    obtain ⟨g, ds⟩ := entry
    rw [configureFileRelations, List.foldl_cons]
    have h2 := ih (configureFileEntry s (g, ds)) f
      (fun g2 ds2 hm => h g2 ds2 (List.mem_cons_of_mem _ hm))
    rw [configureFileRelations] at h2
    rw [h2]
    apply configureFileEntry_parents
    by_cases hgf : g = f
    · exact Or.inl hgf
    · exact Or.inr (h g ds (List.mem_cons_self _ _) hgf)

/-- C10: adding a handler to its own `FileSet` (as the orchestrator does
for every file with no explicit self directive) never touches any
`ParentHandlers` list and appends the handler to its own `FileSet`;
consequently, after the relation-building phase of `ConfigureHandlers`, a
file none of whose fellow files' directives name it — in particular one
whose inclusion entries are only itself — still has an empty
`ParentHandlers` list, and `WriteOutput` therefore selects it for
writing. -/
theorem self_inclusion_keeps_root (s : Store)
    (files : List (Nat × List Nat)) (order : List Nat) (f : Nat)
    (hinit : (s f).parentHandlers = [])
    (hothers : ∀ g ds, (g, ds) ∈ files → g ≠ f → f ∉ ds)
    (horder : f ∈ order) :
    (∀ t : Store, ∀ x : Nat,
      ((addFileHandler t f f) x).parentHandlers = (t x).parentHandlers) ∧
    (∀ t : Store,
      ((addFileHandler t f f) f).fileSet = (t f).fileSet ++ [f]) ∧
    ((configureFileRelations s files) f).parentHandlers = [] ∧
    f ∈ writeOutputIds (configureFileRelations s files) order := by
  have hpar : ((configureFileRelations s files) f).parentHandlers = [] := by
    rw [configureFileRelations_parents files s f hothers, hinit]
  refine ⟨fun t x => addFileHandler_self_parents t f x,
    fun t => addFileHandler_self_fileSet t f, hpar, ?_⟩
  rw [writeOutputIds, List.mem_filter]
  refine ⟨List.mem_reverse.mpr horder, ?_⟩
  rw [hpar]
  rfl

/-- C10's witness input: every handler starts with one chain step and empty
relation lists; file 0's directives name only file 0 itself. -/
def c10Store : Store := fun _ => ⟨[Handler.defaultHandler "css"], [], []⟩

/-- Witness for C10. -/
theorem self_inclusion_keeps_root_witness :
    ((c10Store 0).parentHandlers = [] ∧ (0 : Nat) ∈ [0]) ∧
    (((addFileHandler c10Store 0 0) 0).fileSet = (c10Store 0).fileSet ++ [0] ∧
      ((configureFileRelations c10Store [(0, [0])]) 0).parentHandlers = [] ∧
      0 ∈ writeOutputIds (configureFileRelations c10Store [(0, [0])]) [0]) := by
  have hothers : ∀ g ds, (g, ds) ∈ [((0 : Nat), [(0 : Nat)])] → g ≠ 0 →
      (0 : Nat) ∉ ds := by
    intro g ds hm hne
    rw [List.mem_singleton, Prod.mk.injEq] at hm
    exact absurd hm.1 hne
  have h := self_inclusion_keeps_root c10Store [(0, [0])] [0] 0 rfl hothers
    (by decide)
  exact ⟨⟨rfl, by decide⟩, h.2.1 c10Store, h.2.2.1, h.2.2.2⟩
